import Mathlib

/-!
Verification development for the PQ-tree embedding engine of
`src/src/ogdf/planarity/booth_lueker/EmbedPQTree.cpp` (class `EmbedPQTree`,
used by the Booth–Lueker planarity test).

Shallow embedding conventions:

* A tree node (`PQNode` of the C++ code) is modelled by the inductive
  `PQNode` below.  Node identities (C++ pointers / identification numbers)
  are modelled by a `Nat` id; pointer equality is id equality.
* A Q-node's children are stored in their current left-to-right sibling
  order.  A P-node's children are stored in the order of the circular
  ring walk that starts at the node's `referenceChild` (so the head of the
  list is the `referenceChild`).
* A direction indicator (`EmbedIndicator`) records its `IndInfo`
  (vertex `v` and flag `changeDir`) and the orientation of its two
  sibling pointers.  An indicator's `Left` sibling pointer always targets
  one of its two ring neighbours; the Boolean `sibLeftIsNext` states that
  the `Left` pointer targets the neighbour that *follows* the indicator
  in the stored child list (for a Q-node: its layout-right neighbour).
* The labelling bookkeeping of the base class (`fullChildren`,
  `m_pertinentNodes` filled by Bubble) is represented through the
  `status` fields: for a node processed by a successful reduction the
  `fullChildren` list holds exactly the children whose status is `Full`.
-/

namespace EmbedPQ

/-- Node statuses of `PQNodeRoot::PQNodeStatus` that the embedded code uses. -/
inductive PQNodeStatus where
  | Empty
  | Full
  | Partial
  | Indicator
  | ToBeDeleted
  | Eliminated
deriving DecidableEq, Repr

/-- The information record carried by a direction indicator
(`IndInfo` of `src/unnamed/part_000`): the node `v` it belongs to and the
`changeDir` flag (initialised to `false` by the constructor). -/
structure IndInfo where
  v : Nat
  changeDir : Bool
deriving DecidableEq, Repr

/-- A PQ-tree node.  `leaf` carries its leaf key (the graph edge,
modelled as a `Nat`); `indicator` is an `EmbedIndicator` pseudo-child;
`pnode`/`qnode` are the interior `PQInternalNode`s with their children. -/
inductive PQNode where
  | leaf (id : Nat) (status : PQNodeStatus) (key : Nat)
  | indicator (id : Nat) (info : IndInfo) (sibLeftIsNext : Bool)
  | pnode (id : Nat) (status : PQNodeStatus) (children : List PQNode)
  | qnode (id : Nat) (status : PQNodeStatus) (children : List PQNode)
deriving Repr

instance : Inhabited PQNode := ⟨.leaf 0 .Empty 0⟩

/-- An entry of the frontier list produced by `front`/`getFront`:
either the key of a regular leaf (`PQLeafKey`, carrying the edge) or the
node-info key of a direction indicator (`PQNodeKey`, carrying the
indicator's `IndInfo`). -/
inductive FrontEntry where
  | leafKey (e : Nat)
  | indKey (v : Nat) (changeDir : Bool)
deriving DecidableEq, Repr

/-- Status test `status() == PQNodeStatus::Indicator` used throughout the
source to recognise direction indicators. -/
def isIndicator : PQNode → Bool
  | .indicator _ _ _ => true
  | _ => false

/-- The `status()` of a node.  An `EmbedIndicator` reports status
`Indicator`. -/
def statusOf : PQNode → PQNodeStatus
  | .leaf _ st _ => st
  | .indicator _ _ _ => .Indicator
  | .pnode _ st _ => st
  | .qnode _ st _ => st

/-- The identification number of a node. -/
def nodeId : PQNode → Nat
  | .leaf i _ _ => i
  | .indicator i _ _ => i
  | .pnode i _ _ => i
  | .qnode i _ _ => i

/-- The indicator entries collected while `front` walks the sibling ring of
an interior node (`EmbedPQTree.cpp` lines 446–477).  The argument list is in
walk order.  For the very first son (`isFirst = true`, lines 448–454) the
indicator's info is emitted unchanged.  For every later indicator the walk
arrives from `oldSib`, and `changeDir` is set when
`oldSib == nextSon->getSib(Left)` (lines 459–469).  For a Q-node the walk
runs from the right endmost child towards the left end, so `oldSib` is the
stored-list successor and the test holds iff `sibLeftIsNext`
(`flip = false`); for a P-node the walk runs along the stored list, so
`oldSib` is the stored-list predecessor and the test holds iff
`¬ sibLeftIsNext` (`flip = true`). -/
def walkIndEntries (flip : Bool) : Bool → List PQNode → List FrontEntry
  | _, [] => []
  | isFirst, c :: rest =>
    match c with
    | .indicator _ info s =>
        .indKey info.v (if isFirst then info.changeDir else (info.changeDir || xor s flip))
          :: walkIndEntries flip false rest
    | _ => walkIndEntries flip false rest

mutual

/-- The frontier computed by `EmbedPQTree::front` (lines 427–480), an
explicit-stack depth-first scan.  Popping a leaf emits its key.  Popping an
interior node walks its sibling ring — a P-node starting at its
`referenceChild` (the stored order), a Q-node starting at the right endmost
child (the reverse of the stored left-to-right order) — emitting the
indicators met during the walk at once and pushing the other children, so
that they are expanded in the reverse of the walk order.  (`front` is never
called on a direction indicator by the source; the `indicator` branch
mirrors what the scan emits for an indicator met as a child.) -/
def frontEntries : PQNode → List FrontEntry
  | .leaf _ _ k => [.leafKey k]
  | .indicator _ info _ => [.indKey info.v info.changeDir]
  | .pnode _ _ cs => walkIndEntries true true cs ++ frontRevList cs
  | .qnode _ _ cs => walkIndEntries false true cs.reverse ++ frontList cs

/-- Frontiers of the non-indicator members of a child list, concatenated in
list order (the stack expansion order for a Q-node's children). -/
def frontList : List PQNode → List FrontEntry
  | [] => []
  | c :: cs => (if isIndicator c then [] else frontEntries c) ++ frontList cs

/-- Frontiers of the non-indicator members of a child list, concatenated in
reverse list order (the stack expansion order for a P-node's children). -/
def frontRevList : List PQNode → List FrontEntry
  | [] => []
  | c :: cs => frontRevList cs ++ (if isIndicator c then [] else frontEntries c)

end

/-- The indicator entries collected by `EmbedPQTree::getFront`
(lines 509–521): identical traversal to `front`, but no direction is
assigned — every indicator's info is emitted unchanged. -/
def walkIndEntriesRO : List PQNode → List FrontEntry
  | [] => []
  | c :: rest =>
    match c with
    | .indicator _ info _ => .indKey info.v info.changeDir :: walkIndEntriesRO rest
    | _ => walkIndEntriesRO rest

mutual

/-- The frontier computed by `EmbedPQTree::getFront` (lines 488–530): the
same explicit-stack scan as `front`, with no assignment to `changeDir`, no
`m_pertinentNodes` pushes and no `destroyNode` call. -/
def getFrontEntries : PQNode → List FrontEntry
  | .leaf _ _ k => [.leafKey k]
  | .indicator _ info _ => [.indKey info.v info.changeDir]
  | .pnode _ _ cs => walkIndEntriesRO cs ++ getFrontRevList cs
  | .qnode _ _ cs => walkIndEntriesRO cs.reverse ++ getFrontList cs

/-- `getFront` counterpart of `frontList`. -/
def getFrontList : List PQNode → List FrontEntry
  | [] => []
  | c :: cs => (if isIndicator c then [] else getFrontEntries c) ++ getFrontList cs

/-- `getFront` counterpart of `frontRevList`. -/
def getFrontRevList : List PQNode → List FrontEntry
  | [] => []
  | c :: cs => getFrontRevList cs ++ (if isIndicator c then [] else getFrontEntries c)

end

/-- The key identity of a frontier entry: which `PQBasicKey` object it is
(for an indicator's key, independent of the current value of the mutable
`changeDir` flag stored behind it). -/
def stripDir : FrontEntry → FrontEntry
  | .leafKey e => .leafKey e
  | .indKey v _ => .indKey v false

/-- The id of a node when it is a direction indicator. -/
def topIndId : PQNode → Option Nat
  | .indicator i _ _ => some i
  | _ => none

/-- Ids of the indicators met during a ring walk, in walk order.  `front`
pushes each of them onto `m_pertinentNodes` (lines 450 and 469) — the first
son additionally gets `destroyNode` (line 451) — which schedules them for
destruction by `emptyAllPertinentNodes`/`clientDefinedEmptyNode`
(lines 106–125). -/
def walkIndIds (l : List PQNode) : List Nat := l.filterMap topIndId

mutual

/-- The ids that a call of `EmbedPQTree::front` appends to
`m_pertinentNodes`, i.e. the nodes that the call itself schedules for
destruction, in push order.  The source pushes exactly the direction
indicators met during the scan (lines 450, 469); no other node is pushed or
passed to `destroyNode` by `front`. -/
def frontSched : PQNode → List Nat
  | .leaf _ _ _ => []
  | .indicator _ _ _ => []
  | .pnode _ _ cs => walkIndIds cs ++ schedRevList cs
  | .qnode _ _ cs => walkIndIds cs.reverse ++ schedList cs

/-- Scheduled ids of the non-indicator members of a child list, in list
order. -/
def schedList : List PQNode → List Nat
  | [] => []
  | c :: cs => (if isIndicator c then [] else frontSched c) ++ schedList cs

/-- Scheduled ids of the non-indicator members of a child list, in reverse
list order. -/
def schedRevList : List PQNode → List Nat
  | [] => []
  | c :: cs => schedRevList cs ++ (if isIndicator c then [] else frontSched c)

end

mutual

/-- The tree as left behind by a call of `EmbedPQTree::front`: the only
mutation the source performs on the tree structure is the assignment
`changeDir = true` on an indicator met with `oldSib == getSib(Left)`
(lines 464–467); the first son of a walk is exempt (lines 448–454 have no
such test).  Everything else — node kinds, statuses, keys, child order —
is returned unchanged. -/
def frontAfterT : PQNode → PQNode
  | .leaf i st k => .leaf i st k
  | .indicator i info s => .indicator i info s
  | .pnode i st cs => .pnode i st (afterP true cs)
  | .qnode i st cs => .qnode i st (afterQ cs)

/-- `front`'s mutation on a P-node's children: the walk runs along the
stored list, the head (the `referenceChild`, the walk's first son) is
exempt, and a later indicator's test `oldSib == getSib(Left)` holds iff its
`Left` pointer targets its stored-list predecessor, i.e. iff
`¬ sibLeftIsNext`. -/
def afterP : Bool → List PQNode → List PQNode
  | _, [] => []
  | isFirst, c :: rest =>
    (match c with
     | .indicator i info s =>
         .indicator i ⟨info.v, if isFirst then info.changeDir else (info.changeDir || !s)⟩ s
     | t => frontAfterT t) :: afterP false rest

/-- `front`'s mutation on a Q-node's children: the walk runs from the right
endmost child (the stored list's last element, exempt as the walk's first
son) towards the left end, and an indicator's test `oldSib == getSib(Left)`
holds iff its `Left` pointer targets its stored-list successor, i.e. iff
`sibLeftIsNext`. -/
def afterQ : List PQNode → List PQNode
  | [] => []
  | [c] =>
    [match c with
     | .indicator i info s => .indicator i info s
     | t => frontAfterT t]
  | c :: rest =>
    (match c with
     | .indicator i info s => .indicator i ⟨info.v, info.changeDir || s⟩ s
     | t => frontAfterT t) :: afterQ rest

end

mutual

/-- The tree with every indicator's `changeDir` flag erased; two trees with
the same `eraseCD` image differ at most in `changeDir` values. -/
def eraseCD : PQNode → PQNode
  | .leaf i st k => .leaf i st k
  | .indicator i info s => .indicator i ⟨info.v, false⟩ s
  | .pnode i st cs => .pnode i st (eraseCDList cs)
  | .qnode i st cs => .qnode i st (eraseCDList cs)

/-- `eraseCD` on a child list. -/
def eraseCDList : List PQNode → List PQNode
  | [] => []
  | c :: cs => eraseCD c :: eraseCDList cs

end

mutual

/-- Ids of all direction indicators in a subtree (each of them is met by a
`front` scan of that subtree, since the scan expands every non-indicator
node and inspects every child). -/
def indIds : PQNode → List Nat
  | .leaf _ _ _ => []
  | .indicator i _ _ => [i]
  | .pnode _ _ cs => indIdsList cs
  | .qnode _ _ cs => indIdsList cs

/-- `indIds` over a child list. -/
def indIdsList : List PQNode → List Nat
  | [] => []
  | c :: cs => indIds c ++ indIdsList cs

end

mutual

/-- Ids of all nodes of a subtree whose status is `Full` (all of them are
met by a `front` scan of that subtree). -/
def fullIds : PQNode → List Nat
  | .leaf i st _ => if st = .Full then [i] else []
  | .indicator _ _ _ => []
  | .pnode i st cs => (if st = .Full then [i] else []) ++ fullIdsList cs
  | .qnode i st cs => (if st = .Full then [i] else []) ++ fullIdsList cs

/-- `fullIds` over a child list. -/
def fullIdsList : List PQNode → List Nat
  | [] => []
  | c :: cs => fullIds c ++ fullIdsList cs

end

mutual

/-- Number of leaves of a subtree (indicator pseudo-nodes do not count). -/
def countLeaves : PQNode → Nat
  | .leaf _ _ _ => 1
  | .indicator _ _ _ => 0
  | .pnode _ _ cs => countLeavesList cs
  | .qnode _ _ cs => countLeavesList cs

/-- `countLeaves` over a child list. -/
def countLeavesList : List PQNode → Nat
  | [] => 0
  | c :: cs => countLeaves c + countLeavesList cs

end

/-- The bucketing loop of `EmbedPQTree::ReplaceRoot` (lines 86–99): each
frontier entry with a `userStructKey` (a regular leaf key) goes to the
`frontier` output; each entry with a `userStructInfo` (an indicator key)
goes to `opposed` if its `changeDir` flag is set, to `nonOpposed`
otherwise. -/
def bucketize : List FrontEntry → List Nat × List Nat × List Nat
  | [] => ([], [], [])
  | e :: rest =>
    let r := bucketize rest
    match e with
    | .leafKey k => (k :: r.1, r.2.1, r.2.2)
    | .indKey v cd => if cd then (r.1, v :: r.2.1, r.2.2) else (r.1, r.2.1, v :: r.2.2)

/-- The leaf keys of a frontier entry list, in order. -/
def frontierEdges (l : List FrontEntry) : List Nat :=
  l.filterMap fun e => match e with | .leafKey k => some k | _ => none

/-- The vertices of the indicator entries of a frontier entry list whose
`changeDir` flag is set. -/
def opposedVs (l : List FrontEntry) : List Nat :=
  l.filterMap fun e => match e with | .indKey v true => some v | _ => none

/-- The vertices of the indicator entries of a frontier entry list whose
`changeDir` flag is not set. -/
def nonOpposedVs (l : List FrontEntry) : List Nat :=
  l.filterMap fun e => match e with | .indKey v false => some v | _ => none

/-- The new leaves created for a reduction-set key list
(`addNewLeavesToTree` of the base class: one fresh `PQLeaf` with status
`Empty` per key, in key order; the fresh identification numbers are
modelled by the keys themselves). -/
def newLeavesFor (keys : List Nat) : List PQNode :=
  keys.map fun k => .leaf k .Empty k

/-- Result of `EmbedPQTree::ReplaceFullRoot` in the value-level model:
the frontier it scanned, the node that now stands where the pertinent root
stood, the freshly created direction indicator (to be threaded into the
ring next to the replacement — in the source this is done in place via
`addNodeToNewParent`, lines 176–191/205–219), and whether
`m_pertinentRoot` was reset to null. -/
structure FullRootResult where
  frontier : List FrontEntry
  replacement : PQNode
  newInd : Option PQNode
  pertCleared : Bool
deriving Repr

/-- Embeds `EmbedPQTree::ReplaceFullRoot` (lines 160–246).  It first scans
the pertinent subtree with `front` (line 165).  If the reduction set holds
exactly one key (`leafKeys.front() == leafKeys.back()`, key objects being
compared by identity), the whole subtree is exchanged for one fresh leaf
carrying that key (lines 174–200).  Otherwise, with at least two keys, a
P-node/Q-node pertinent root is converted to a P-node, all its `Full`
children (the `fullChildren` bookkeeping list) are unlinked, and one fresh
leaf per key is added (lines 202–245); a leaf pertinent root is exchanged
for a fresh P-node that then receives the fresh leaves.  When
`addIndicator` is set a fresh indicator for vertex `v` is created with
`changeDir = false` and its `Left` sibling pointer aimed at the
replacement, which precedes it in the ring (lines 163–172, 176–191):
`sibLeftIsNext = false`. -/
def ReplaceFullRoot (leafKeys : List Nat) (v : Nat) (addIndicator : Bool)
    (newId : Nat) (pertRoot : PQNode) : FullRootResult :=
  let fr := frontEntries pertRoot
  let ind : Option PQNode :=
    if addIndicator then some (.indicator (newId + 1) ⟨v, false⟩ false) else none
  if leafKeys ≠ [] ∧ leafKeys.head? = leafKeys.getLast? then
    { frontier := fr, replacement := .leaf newId .Empty (leafKeys.headD 0),
      newInd := ind, pertCleared := true }
  else if leafKeys = [] then
    { frontier := fr, replacement := pertRoot, newInd := ind, pertCleared := false }
  else
    match pertRoot with
    | .pnode i st cs =>
        { frontier := fr,
          replacement := .pnode i st (cs.filter (fun c => !(statusOf c == .Full)) ++ newLeavesFor leafKeys),
          newInd := ind, pertCleared := false }
    | .qnode i st cs =>
        { frontier := fr,
          replacement := .pnode i st (cs.filter (fun c => !(statusOf c == .Full)) ++ newLeavesFor leafKeys),
          newInd := ind, pertCleared := false }
    | _ =>
        { frontier := fr, replacement := .pnode newId .Empty (newLeavesFor leafKeys),
          newInd := ind, pertCleared := true }

/-- The skipping loop shared by `EmbedPQTree::clientSibLeft` and
`clientSibRight` (lines 336–362): starting from the base-class sibling,
keep stepping in the same direction while the current node is a direction
indicator; the argument lists the siblings in stepping order. -/
def skipIndicatorRun : List PQNode → Option PQNode
  | [] => none
  | c :: rest => if isIndicator c then skipIndicatorRun rest else some c

/-- Embeds `EmbedPQTree::clientSibLeft` (lines 336–346) for the child at
position `i` of the child list `cs`: the nearest non-indicator sibling to
the left, if any. -/
def clientSibLeft (cs : List PQNode) (i : Nat) : Option PQNode :=
  skipIndicatorRun (cs.take i).reverse

/-- Embeds `EmbedPQTree::clientSibRight` (lines 351–362) for the child at
position `i` of the child list `cs`: the nearest non-indicator sibling to
the right, if any. -/
def clientSibRight (cs : List PQNode) (i : Nat) : Option PQNode :=
  skipIndicatorRun (cs.drop (i + 1))

/-- Embeds `EmbedPQTree::clientNextSib` (lines 395–408) for the child at
position `i`: the client sibling on either side that differs from `other`
(node identity being pointer identity, modelled by ids). -/
def clientNextSib (cs : List PQNode) (i : Nat) (other : Option Nat) : Option PQNode :=
  let l := clientSibLeft cs i
  if l.map nodeId ≠ other then l
  else
    let r := clientSibRight cs i
    if r.map nodeId ≠ other then r
    else none

/-- Embeds `EmbedPQTree::clientLeftEndmost` (lines 367–376): the left
endmost child if it is not an indicator, else the next client sibling
walking inwards. -/
def clientLeftEndmost (cs : List PQNode) : Option PQNode :=
  match cs.head? with
  | none => none
  | some c => if isIndicator c then clientNextSib cs 0 none else some c

/-- Embeds `EmbedPQTree::clientRightEndmost` (lines 381–390): the right
endmost child if it is not an indicator, else the next client sibling
walking inwards. -/
def clientRightEndmost (cs : List PQNode) : Option PQNode :=
  match cs.getLast? with
  | none => none
  | some c => if isIndicator c then clientNextSib cs (cs.length - 1) none else some c

/-- Whether a client sibling slot is free for a full run's end: the
source's test `!clientSibLeft(x) || clientSibLeft(x)->status() == Empty`
(lines 270–271 and 279–280). -/
def sibEmptyOrNone : Option PQNode → Bool
  | none => true
  | some c => statusOf c == .Empty

/-- The begin/end detection loop of `EmbedPQTree::ReplacePartialRoot`
(lines 260–289): the `fullChildren` list is walked (modelled in child-list
order, the order the labelling pass produces for a contiguous run); a full
child whose client sibling on one side is missing or `Empty` becomes
`beginSequence` if none is set yet, `endSequence` otherwise. -/
def runEnds (cs : List PQNode) : Option Nat × Option Nat :=
  (List.range cs.length).foldl
    (fun be i =>
      if statusOf (cs.getD i default) == .Full then
        if sibEmptyOrNone (clientSibLeft cs i) then
          match be.1 with
          | none => (some i, be.2)
          | some _ => (be.1, some i)
        else if sibEmptyOrNone (clientSibRight cs i) then
          match be.1 with
          | none => (some i, be.2)
          | some _ => (be.1, some i)
        else be
      else be)
    (none, none)

/-- The scan of the consecutive full sequence in
`EmbedPQTree::ReplacePartialRoot` (lines 300–325), over the child segment
from `beginSequence` to `endSequence` inclusive.  Every full child but the
last is scanned with `front` and unlinked; an intermediate indicator's
`changeDir` is set when `currentNode == currentInd->getSib(Right)`
(line 313), i.e. when the indicator directly follows the full child just
processed (`gapHead`) and its `Right` pointer targets that stored-list
predecessor (`sibLeftIsNext`); its key is appended to the frontier and it
is unlinked and pushed onto `m_pertinentNodes`.  The last element (the
`endSequence` child) is left to `ReplaceFullRoot`. -/
def scanSegAux : Bool → List PQNode → List FrontEntry
  | _, [] => []
  | _, [_] => []
  | gapHead, .indicator _ info s :: rest =>
      .indKey info.v (info.changeDir || (gapHead && s)) :: scanSegAux false rest
  | _, c :: rest => frontEntries c ++ scanSegAux true rest

/-- Result of `EmbedPQTree::ReplacePartialRoot` in the value-level model. -/
structure PartRootResult where
  frontier : List FrontEntry
  newTree : PQNode
  pertCleared : Bool
deriving Repr

/-- The children of an interior node. -/
def childrenOf : PQNode → List PQNode
  | .pnode _ _ cs => cs
  | .qnode _ _ cs => cs
  | _ => []

/-- The same interior node with a new child list. -/
def withChildren : PQNode → List PQNode → PQNode
  | .pnode i st _, cs => .pnode i st cs
  | .qnode i st _, cs => .qnode i st cs
  | t, _ => t

/-- Embeds `EmbedPQTree::ReplacePartialRoot` (lines 255–331).  The run of
full children from `beginSequence` to `endSequence` is located
(lines 260–289), every full child but the last is scanned and unlinked
together with the intermediate indicators (lines 300–325), and
`ReplaceFullRoot` is invoked on the last one with `addIndicator = true`
(lines 327–329), so that the replacement carries a fresh direction
indicator threaded into the ring right after it (between it and the old
right neighbour of `endSequence`, or at the ring's end).  `none` models
the `OGDF_ASSERT` contract violations (no begin/end found, or a
non-interior pertinent root).  The cached `childCount` adjustment of
lines 257–258 needs no counterpart: the model's child list carries its
length implicitly. -/
def ReplacePartialRoot (leafKeys : List Nat) (v : Nat) (newId : Nat)
    (t : PQNode) : Option PartRootResult :=
  match t with
  | .pnode _ _ _ | .qnode _ _ _ =>
    let cs := childrenOf t
    match runEnds cs with
    | (some b, some e) =>
      let pre := cs.take b
      let seg := (cs.drop b).take (e + 1 - b)
      let post := cs.drop (e + 1)
      let lastFull := cs.getD e default
      let r := ReplaceFullRoot leafKeys v true newId lastFull
      some { frontier := scanSegAux true seg ++ r.frontier,
             newTree := withChildren t (pre ++ r.replacement :: (r.newInd.toList ++ post)),
             pertCleared := r.pertCleared }
    | _ => none
  | _ => none

/-- Result of `EmbedPQTree::ReplaceRoot` in the value-level model:
the three output lists, the subtree standing where the pertinent root
stood, and whether `m_pertinentRoot` ended up null. -/
structure RootResult where
  frontier : List Nat
  opposed : List Nat
  nonOpposed : List Nat
  newTree : PQNode
  pertCleared : Bool
deriving Repr

/-- Embeds `EmbedPQTree::ReplaceRoot` (lines 69–100).  The pertinent root
is passed as the subtree `t`; `pertIsRoot` states that it is the whole
tree (`m_pertinentRoot == m_root`).  With an empty key list on the whole
tree the source merely scans the frontier with `front` and nulls
`m_pertinentRoot` (lines 73–75); otherwise it dispatches on the pertinent
root's status to `ReplaceFullRoot` or `ReplacePartialRoot` (lines 78–82).
The collected node frontier is then bucketed (lines 86–99).  The assert
fallback of `ReplacePartialRoot` leaves the tree unchanged. -/
def ReplaceRoot (leafKeys : List Nat) (pertIsRoot : Bool) (v : Nat)
    (newId : Nat) (t : PQNode) : RootResult :=
  if leafKeys = [] ∧ pertIsRoot then
    let r := bucketize (frontEntries t)
    { frontier := r.1, opposed := r.2.1, nonOpposed := r.2.2,
      newTree := frontAfterT t, pertCleared := true }
  else if statusOf t = .Full then
    let f := ReplaceFullRoot leafKeys v false newId t
    let r := bucketize f.frontier
    { frontier := r.1, opposed := r.2.1, nonOpposed := r.2.2,
      newTree := f.replacement, pertCleared := f.pertCleared }
  else
    match ReplacePartialRoot leafKeys v newId t with
    | some p =>
      let r := bucketize p.frontier
      { frontier := r.1, opposed := r.2.1, nonOpposed := r.2.2,
        newTree := p.newTree, pertCleared := p.pertCleared }
    | none =>
      { frontier := [], opposed := [], nonOpposed := [],
        newTree := t, pertCleared := false }

/-- Error value of the degenerate-input failure of tree construction. -/
inductive InitError where
  | InvalidInput
deriving DecidableEq, Repr

/-- Modelled from the spec: `PQTree::Initialize` of the base class is not
under `src/` (`EmbedPQTree::Initialize`, lines 129–136, only casts the
keys and delegates).  Per spec §4.1 it "builds a tree whose root is a
single P-node with one leaf child per input key (if ≥2 keys) or a bare
leaf (1 key); fails with `InvalidInput` if `keys` is empty".  Fresh leaf
identification numbers are modelled by the keys themselves; `rootId` is
the fresh id of the root P-node. -/
def InitializeModel (keys : List Nat) (rootId : Nat) : Except InitError PQNode :=
  match keys with
  | [] => .error .InvalidInput
  | [k] => .ok (.leaf k .Empty k)
  | ks => .ok (.pnode rootId .Empty (newLeavesFor ks))

/-- Whether the `true` entries of a Boolean list form one contiguous
block. -/
def contiguousTrue (bs : List Bool) : Bool :=
  ((bs.dropWhile (fun b => !b)).dropWhile (fun b => b)).all (fun b => !b)

/-- Modelled from the spec: `PQTree::Reduction` (Bubble/Label pass and
template matching) of the base class is not under `src/`
(`EmbedPQTree::Reduction`, lines 140–147, only casts the keys and
delegates).  For a tree that is a single Q-node over leaves, spec §4.3
("Q-node templates additionally enforce that Full and Partial children
occupy a single contiguous run within the ordered sibling sequence",
failure signalling non-planarity) reduces to: the reduction succeeds iff
the pertinent leaves form one contiguous run in the sibling order.  The
returned Boolean matches the C++ `bool` (false = non-planarity
failure). -/
def ReductionQnode (leaves : List Nat) (redSet : List Nat) : Bool :=
  contiguousTrue (leaves.map (redSet.contains ·))

/-- Modelled from the spec: the Bubble/Label pass of the base class (spec
§4.2 and §3 invariant (b)) marks a leaf `Full` iff its key is in the
reduction set, and a Q-node over leaves `Full` when all its children are
`Full`, `Partial` when only some are. -/
def labelQnode (id : Nat) (leaves : List Nat) (redSet : List Nat) : PQNode :=
  .qnode id (if leaves.all (redSet.contains ·) then .Full else .Partial)
    (leaves.map fun k => .leaf k (if redSet.contains k then .Full else .Empty) k)

/-! ### Shared lemmas about the embedded scans -/

theorem frontList_append (l1 l2 : List PQNode) :
    frontList (l1 ++ l2) = frontList l1 ++ frontList l2 := by
  induction l1 with
  | nil => simp [frontList]
  | cons c cs ih => simp [frontList, ih]

theorem walkIndEntries_append (flip b : Bool) (xs ys : List PQNode) :
    walkIndEntries flip b (xs ++ ys) =
      walkIndEntries flip b xs ++ walkIndEntries flip (b && xs.isEmpty) ys := by
  induction xs generalizing b with
  | nil => simp [walkIndEntries]
  | cons c rest ih => cases c <;> simp [walkIndEntries, ih false]

theorem walkIndEntries_nil_of_no_ind (flip b : Bool) (l : List PQNode)
    (h : ∀ c ∈ l, isIndicator c = false) : walkIndEntries flip b l = [] := by
  induction l generalizing b with
  | nil => rfl
  | cons c rest ih =>
    have hc := h c (by simp)
    cases c with
    | indicator i info s => simp [isIndicator] at hc
    | leaf i st k => exact ih false fun c h' => h c (by simp [h'])
    | pnode i st cs => exact ih false fun c h' => h c (by simp [h'])
    | qnode i st cs => exact ih false fun c h' => h c (by simp [h'])

theorem walkIndEntriesRO_nil_of_no_ind (l : List PQNode)
    (h : ∀ c ∈ l, isIndicator c = false) : walkIndEntriesRO l = [] := by
  induction l with
  | nil => rfl
  | cons c rest ih =>
    have hc := h c (by simp)
    cases c with
    | indicator i info s => simp [isIndicator] at hc
    | leaf i st k => exact ih fun c h' => h c (by simp [h'])
    | pnode i st cs => exact ih fun c h' => h c (by simp [h'])
    | qnode i st cs => exact ih fun c h' => h c (by simp [h'])

theorem frontList_eq_flatMap (cs : List PQNode)
    (h : ∀ c ∈ cs, isIndicator c = false) :
    frontList cs = cs.flatMap frontEntries := by
  induction cs with
  | nil => rfl
  | cons c rest ih =>
    have hc := h c (by simp)
    simp [frontList, hc, ih fun c h' => h c (by simp [h'])]

theorem frontRevList_eq_flatMap (cs : List PQNode)
    (h : ∀ c ∈ cs, isIndicator c = false) :
    frontRevList cs = cs.reverse.flatMap frontEntries := by
  induction cs with
  | nil => rfl
  | cons c rest ih =>
    have hc := h c (by simp)
    simp [frontRevList, hc, ih fun c h' => h c (by simp [h'])]

theorem getFrontList_eq_flatMap (cs : List PQNode)
    (h : ∀ c ∈ cs, isIndicator c = false) :
    getFrontList cs = cs.flatMap getFrontEntries := by
  induction cs with
  | nil => rfl
  | cons c rest ih =>
    have hc := h c (by simp)
    simp [getFrontList, hc, ih fun c h' => h c (by simp [h'])]

theorem getFrontRevList_eq_flatMap (cs : List PQNode)
    (h : ∀ c ∈ cs, isIndicator c = false) :
    getFrontRevList cs = cs.reverse.flatMap getFrontEntries := by
  induction cs with
  | nil => rfl
  | cons c rest ih =>
    have hc := h c (by simp)
    simp [getFrontRevList, hc, ih fun c h' => h c (by simp [h'])]

theorem walkIndEntries_strip (flip b : Bool) (l : List PQNode) :
    (walkIndEntries flip b l).map stripDir = (walkIndEntriesRO l).map stripDir := by
  induction l generalizing b with
  | nil => simp [walkIndEntries, walkIndEntriesRO]
  | cons c rest ih =>
    cases c <;> simp [walkIndEntries, walkIndEntriesRO, stripDir, ih]

mutual

theorem frontEntries_strip (t : PQNode) :
    (frontEntries t).map stripDir = (getFrontEntries t).map stripDir := by
  cases t with
  | leaf i st k => rfl
  | indicator i info s => rfl
  | pnode i st cs =>
      simp only [frontEntries, getFrontEntries, List.map_append,
        walkIndEntries_strip, frontRevList_strip cs]
  | qnode i st cs =>
      simp only [frontEntries, getFrontEntries, List.map_append,
        walkIndEntries_strip, frontList_strip cs]

theorem frontList_strip (cs : List PQNode) :
    (frontList cs).map stripDir = (getFrontList cs).map stripDir := by
  cases cs with
  | nil => rfl
  | cons c rest =>
      simp only [frontList, getFrontList, List.map_append, frontList_strip rest]
      cases h : isIndicator c <;> simp [frontEntries_strip c]

theorem frontRevList_strip (cs : List PQNode) :
    (frontRevList cs).map stripDir = (getFrontRevList cs).map stripDir := by
  cases cs with
  | nil => rfl
  | cons c rest =>
      simp only [frontRevList, getFrontRevList, List.map_append, frontRevList_strip rest]
      cases h : isIndicator c <;> simp [frontEntries_strip c]

end

theorem bucketize_eq (l : List FrontEntry) :
    bucketize l = (frontierEdges l, opposedVs l, nonOpposedVs l) := by
  induction l with
  | nil => rfl
  | cons e rest ih =>
    cases e with
    | leafKey k =>
        simp [bucketize, frontierEdges, opposedVs, nonOpposedVs, List.filterMap_cons, ih]
    | indKey v cd =>
        cases cd <;>
          simp [bucketize, frontierEdges, opposedVs, nonOpposedVs, List.filterMap_cons, ih]

mutual

theorem eraseCD_frontAfterT (t : PQNode) : eraseCD (frontAfterT t) = eraseCD t := by
  cases t with
  | leaf i st k => rfl
  | indicator i info s => rfl
  | pnode i st cs => simp [frontAfterT, eraseCD, eraseCDList_afterP true cs]
  | qnode i st cs => simp [frontAfterT, eraseCD, eraseCDList_afterQ cs]

theorem eraseCDList_afterP (b : Bool) (cs : List PQNode) :
    eraseCDList (afterP b cs) = eraseCDList cs := by
  cases cs with
  | nil => rfl
  | cons c rest =>
      cases c with
      | indicator i info s =>
          simp [afterP, eraseCD, eraseCDList, eraseCDList_afterP false rest]
      | leaf i st k =>
          simp only [afterP, eraseCDList]
          rw [eraseCD_frontAfterT, eraseCDList_afterP false rest]
      | pnode i st cs' =>
          simp only [afterP, eraseCDList]
          rw [eraseCD_frontAfterT, eraseCDList_afterP false rest]
      | qnode i st cs' =>
          simp only [afterP, eraseCDList]
          rw [eraseCD_frontAfterT, eraseCDList_afterP false rest]

theorem eraseCDList_afterQ (cs : List PQNode) :
    eraseCDList (afterQ cs) = eraseCDList cs := by
  cases cs with
  | nil => rfl
  | cons c rest =>
      cases rest with
      | nil =>
          cases c with
          | indicator i info s => rfl
          | leaf i st k =>
              simp only [afterQ, eraseCDList]
              rw [eraseCD_frontAfterT]
          | pnode i st cs' =>
              simp only [afterQ, eraseCDList]
              rw [eraseCD_frontAfterT]
          | qnode i st cs' =>
              simp only [afterQ, eraseCDList]
              rw [eraseCD_frontAfterT]
      | cons d rest' =>
          cases c with
          | indicator i info s =>
              simp [afterQ, eraseCD, eraseCDList, eraseCDList_afterQ (d :: rest')]
          | leaf i st k =>
              simp only [afterQ, eraseCDList]
              rw [eraseCD_frontAfterT, eraseCDList_afterQ (d :: rest')]
              rfl
          | pnode i st cs' =>
              simp only [afterQ, eraseCDList]
              rw [eraseCD_frontAfterT, eraseCDList_afterQ (d :: rest')]
              rfl
          | qnode i st cs' =>
              simp only [afterQ, eraseCDList]
              rw [eraseCD_frontAfterT, eraseCDList_afterQ (d :: rest')]
              rfl

end

theorem mem_walkIndIds_reverse (l : List PQNode) (i : Nat) :
    i ∈ walkIndIds l.reverse ↔ i ∈ walkIndIds l := by
  simp [walkIndIds, List.mem_filterMap]

mutual

theorem frontSched_iff_indIds (t : PQNode) (h : isIndicator t = false) (i : Nat) :
    i ∈ frontSched t ↔ i ∈ indIds t := by
  cases t with
  | leaf j st k => simp [frontSched, indIds]
  | indicator j info s => simp [isIndicator] at h
  | pnode j st cs =>
      simp only [frontSched, indIds, List.mem_append]
      exact schedRevList_iff cs i
  | qnode j st cs =>
      simp only [frontSched, indIds, List.mem_append]
      rw [mem_walkIndIds_reverse]
      exact schedList_iff cs i

theorem schedList_iff (cs : List PQNode) (i : Nat) :
    i ∈ walkIndIds cs ∨ i ∈ schedList cs ↔ i ∈ indIdsList cs := by
  cases cs with
  | nil => simp [walkIndIds, schedList, indIdsList]
  | cons c rest =>
      cases c with
      | indicator j info s =>
          have hr := schedList_iff rest i
          simp only [walkIndIds, List.filterMap_cons, topIndId, schedList, indIdsList,
            indIds, isIndicator] at *
          simp only [List.mem_cons, List.mem_append, List.singleton_append,
            if_true] at *
          tauto
      | leaf j st k =>
          have hs := frontSched_iff_indIds (.leaf j st k) rfl i
          have hr := schedList_iff rest i
          simp only [walkIndIds, List.filterMap_cons, topIndId, schedList, indIdsList,
            isIndicator, if_false, List.mem_append] at *
          tauto
      | pnode j st cs' =>
          have hs := frontSched_iff_indIds (.pnode j st cs') rfl i
          have hr := schedList_iff rest i
          simp only [walkIndIds, List.filterMap_cons, topIndId, schedList, indIdsList,
            isIndicator, if_false, List.mem_append] at *
          tauto
      | qnode j st cs' =>
          have hs := frontSched_iff_indIds (.qnode j st cs') rfl i
          have hr := schedList_iff rest i
          simp only [walkIndIds, List.filterMap_cons, topIndId, schedList, indIdsList,
            isIndicator, if_false, List.mem_append] at *
          tauto

theorem schedRevList_iff (cs : List PQNode) (i : Nat) :
    i ∈ walkIndIds cs ∨ i ∈ schedRevList cs ↔ i ∈ indIdsList cs := by
  cases cs with
  | nil => simp [walkIndIds, schedRevList, indIdsList]
  | cons c rest =>
      cases c with
      | indicator j info s =>
          have hr := schedRevList_iff rest i
          simp only [walkIndIds, List.filterMap_cons, topIndId, schedRevList, indIdsList,
            indIds, isIndicator] at *
          simp only [List.mem_cons, List.mem_append, List.singleton_append,
            if_true] at *
          tauto
      | leaf j st k =>
          have hs := frontSched_iff_indIds (.leaf j st k) rfl i
          have hr := schedRevList_iff rest i
          simp only [walkIndIds, List.filterMap_cons, topIndId, schedRevList, indIdsList,
            isIndicator, if_false, List.mem_append] at *
          tauto
      | pnode j st cs' =>
          have hs := frontSched_iff_indIds (.pnode j st cs') rfl i
          have hr := schedRevList_iff rest i
          simp only [walkIndIds, List.filterMap_cons, topIndId, schedRevList, indIdsList,
            isIndicator, if_false, List.mem_append] at *
          tauto
      | qnode j st cs' =>
          have hs := frontSched_iff_indIds (.qnode j st cs') rfl i
          have hr := schedRevList_iff rest i
          simp only [walkIndIds, List.filterMap_cons, topIndId, schedRevList, indIdsList,
            isIndicator, if_false, List.mem_append] at *
          tauto

end

theorem skipIndicatorRun_not_ind (l : List PQNode) (x : PQNode) :
    skipIndicatorRun l = some x → isIndicator x = false := by
  induction l with
  | nil => intro h; simp [skipIndicatorRun] at h
  | cons c rest ih =>
    intro h
    by_cases hc : isIndicator c = true
    · rw [skipIndicatorRun, if_pos hc] at h
      exact ih h
    · rw [skipIndicatorRun, if_neg hc] at h
      cases h
      simpa using hc

theorem skipIndicatorRun_none (l : List PQNode) :
    skipIndicatorRun l = none → ∀ c ∈ l, isIndicator c = true := by
  induction l with
  | nil => intro _ c hc; simp at hc
  | cons c rest ih =>
    intro h d hd
    by_cases hc : isIndicator c = true
    · rw [skipIndicatorRun, if_pos hc] at h
      rcases List.mem_cons.mp hd with h1 | h2
      · rw [h1]; exact hc
      · exact ih h d h2
    · rw [skipIndicatorRun, if_neg hc] at h
      cases h

theorem head?_ne_getLast?_of_nodup (a b : Nat) (l : List Nat)
    (hn : (a :: b :: l).Nodup) :
    (a :: b :: l).head? ≠ (a :: b :: l).getLast? := by
  simp only [List.head?_cons, List.getLast?_cons_cons]
  intro h
  have hmem : a ∈ b :: l := List.mem_of_mem_getLast? (show (b :: l).getLast? = some a from h.symm)
  exact (List.nodup_cons.mp hn).1 hmem

theorem newLeavesFor_no_ind (keys : List Nat) :
    ∀ c ∈ newLeavesFor keys, isIndicator c = false := by
  intro c hc
  rcases List.mem_map.mp hc with ⟨k, _, rfl⟩
  rfl

theorem countLeavesList_newLeavesFor (keys : List Nat) :
    countLeavesList (newLeavesFor keys) = keys.length := by
  induction keys with
  | nil => rfl
  | cons k ks ih =>
      simp only [newLeavesFor, List.map_cons, countLeavesList, countLeaves,
        List.length_cons] at *
      omega

theorem frontRevList_newLeavesFor (keys : List Nat) :
    frontRevList (newLeavesFor keys) = keys.reverse.map FrontEntry.leafKey := by
  induction keys with
  | nil => rfl
  | cons k ks ih =>
      simp only [newLeavesFor, List.map_cons, frontRevList, List.reverse_cons,
        List.map_append, List.map_cons, List.map_nil] at *
      simp [ih, isIndicator, frontEntries]

theorem getFrontRevList_newLeavesFor (keys : List Nat) :
    getFrontRevList (newLeavesFor keys) = keys.reverse.map FrontEntry.leafKey := by
  induction keys with
  | nil => rfl
  | cons k ks ih =>
      simp only [newLeavesFor, List.map_cons, getFrontRevList, List.reverse_cons,
        List.map_append, List.map_cons, List.map_nil] at *
      simp [ih, isIndicator, getFrontEntries]

theorem frontierEdges_map_leafKey (l : List Nat) :
    frontierEdges (l.map FrontEntry.leafKey) = l := by
  induction l with
  | nil => rfl
  | cons k ks ih => simp only [List.map_cons, frontierEdges, List.filterMap_cons] at *; simp [ih]

/-! ### The claims -/

/-- Claim C1.  For the tree whose root is a Q-node over the leaves
`[a, b, c, d] = [10, 20, 30, 40]` in that sibling order, the Reduction on
the non-contiguous set `{a, c}` returns `false` (the non-planarity
failure), while the Reduction on the contiguous set `{a, b}` returns
`true`, and the subsequent frontier scan of the pertinent subtree (the run
of Full children scanned by `ReplaceRoot`, here with the next vertex's key
list `[99]`) yields exactly the sequence `[a, b]`.  The Reduction itself is
executed by the base class (not under `src/`) and is modelled from the
spec by `ReductionQnode`/`labelQnode`; the frontier scan is the embedded
`ReplaceRoot`. -/
theorem claim_C1 :
    ReductionQnode [10, 20, 30, 40] [10, 30] = false ∧
    ReductionQnode [10, 20, 30, 40] [10, 20] = true ∧
    (ReplaceRoot [99] true 7 100 (labelQnode 0 [10, 20, 30, 40] [10, 20])).frontier
      = [10, 20] := by
  refine ⟨rfl, rfl, ?_⟩
  decide

/-- Claim C7.  `Initialize` (base class, modelled from the spec by
`InitializeModel`) builds a single P-node root with one leaf child per key
when given at least two keys, a bare leaf when given exactly one key, and
fails with `InvalidInput` on the empty key list; it produces nothing
else. -/
theorem claim_C7 :
    (∀ rootId : Nat, InitializeModel [] rootId = .error .InvalidInput) ∧
    (∀ k rootId : Nat, InitializeModel [k] rootId = .ok (.leaf k .Empty k)) ∧
    (∀ (k1 k2 : Nat) (ks : List Nat) (rootId : Nat),
      InitializeModel (k1 :: k2 :: ks) rootId =
        .ok (.pnode rootId .Empty (newLeavesFor (k1 :: k2 :: ks)))) :=
  ⟨fun _ => rfl, fun _ _ => rfl, fun _ _ _ _ => rfl⟩

/-- Claim C6.  After `Initialize` on a list of distinct keys the tree has
exactly as many leaves as keys, and a whole-tree scan by `front` or
`getFront` returns every key exactly once (the leaf-key entries form a
permutation of the key list, and each key occurs once). -/
theorem claim_C6 (keys : List Nat) (rootId : Nat) (t : PQNode)
    (hok : InitializeModel keys rootId = .ok t) (hnd : keys.Nodup) :
    countLeaves t = keys.length ∧
    (frontierEdges (frontEntries t)).Perm keys ∧
    (frontierEdges (getFrontEntries t)).Perm keys ∧
    (∀ k ∈ keys, (frontierEdges (frontEntries t)).count k = 1) ∧
    (∀ k ∈ keys, (frontierEdges (getFrontEntries t)).count k = 1) := by
  have main : countLeaves t = keys.length ∧
      (frontierEdges (frontEntries t)).Perm keys ∧
      (frontierEdges (getFrontEntries t)).Perm keys := by
    match keys, hok with
    | [k], hok =>
        cases hok
        exact ⟨rfl, by simp [frontEntries, frontierEdges], by simp [getFrontEntries, frontierEdges]⟩
    | k1 :: k2 :: ks, hok =>
        cases hok
        have hno := newLeavesFor_no_ind (k1 :: k2 :: ks)
        constructor
        · simpa [countLeaves] using countLeavesList_newLeavesFor (k1 :: k2 :: ks)
        constructor
        · rw [show frontEntries (.pnode rootId .Empty (newLeavesFor (k1 :: k2 :: ks))) =
              walkIndEntries true true (newLeavesFor (k1 :: k2 :: ks)) ++
                frontRevList (newLeavesFor (k1 :: k2 :: ks)) from rfl,
            walkIndEntries_nil_of_no_ind _ _ _ hno, frontRevList_newLeavesFor,
            List.nil_append, frontierEdges_map_leafKey]
          exact List.reverse_perm _
        · rw [show getFrontEntries (.pnode rootId .Empty (newLeavesFor (k1 :: k2 :: ks))) =
              walkIndEntriesRO (newLeavesFor (k1 :: k2 :: ks)) ++
                getFrontRevList (newLeavesFor (k1 :: k2 :: ks)) from rfl,
            walkIndEntriesRO_nil_of_no_ind _ hno, getFrontRevList_newLeavesFor,
            List.nil_append, frontierEdges_map_leafKey]
          exact List.reverse_perm _
  refine ⟨main.1, main.2.1, main.2.2, ?_, ?_⟩
  · intro k hk
    rw [main.2.1.count_eq]
    exact List.count_eq_one_of_mem hnd hk
  · intro k hk
    rw [main.2.2.count_eq]
    exact List.count_eq_one_of_mem hnd hk

/-- Concrete instance of `claim_C6` with keys `[3, 1, 2]`, every
hypothesis discharged by evaluation. -/
theorem claim_C6_witness :
    countLeaves (.pnode 9 .Empty (newLeavesFor [3, 1, 2])) = 3 ∧
    (frontierEdges (frontEntries (.pnode 9 .Empty (newLeavesFor [3, 1, 2])))).Perm [3, 1, 2] ∧
    (frontierEdges (getFrontEntries (.pnode 9 .Empty (newLeavesFor [3, 1, 2])))).Perm [3, 1, 2] ∧
    (∀ k ∈ [3, 1, 2],
      (frontierEdges (frontEntries (.pnode 9 .Empty (newLeavesFor [3, 1, 2])))).count k = 1) ∧
    (∀ k ∈ [3, 1, 2],
      (frontierEdges (getFrontEntries (.pnode 9 .Empty (newLeavesFor [3, 1, 2])))).count k = 1) :=
  claim_C6 [3, 1, 2] 9 (.pnode 9 .Empty (newLeavesFor [3, 1, 2])) rfl (by decide)

/-- Claim C2.  After a successful Reduction whose pertinent root is `Full`:
with a reduction set of exactly one key, `ReplaceFullRoot` replaces the
whole pertinent subtree by one fresh leaf carrying that key (and nulls the
pertinent root); with two or more (distinct) keys it turns the pertinent
root into exactly one P-node whose children are exactly one fresh leaf per
key — the old structure beneath a Full root (all its children `Full`) is
discarded.  In particular, `Initialize` with `[e1]`, Reduction on `{e1}`
(which marks the single leaf `Full`), then `ReplaceRoot` leaves the tree a
single leaf referencing `e1`. -/
theorem claim_C2 (keys : List Nat) (hlen : 2 ≤ keys.length) (hnd : keys.Nodup)
    (i v newId : Nat) (st : PQNodeStatus) (cs : List PQNode)
    (hfull : ∀ c ∈ cs, statusOf c = .Full) :
    (∀ (k v' nid : Nat) (t : PQNode),
      (ReplaceFullRoot [k] v' false nid t).replacement = .leaf nid .Empty k ∧
      (ReplaceFullRoot [k] v' false nid t).pertCleared = true) ∧
    (ReplaceFullRoot keys v false newId (.pnode i st cs)).replacement =
      .pnode i st (newLeavesFor keys) ∧
    (ReplaceFullRoot keys v false newId (.qnode i st cs)).replacement =
      .pnode i st (newLeavesFor keys) ∧
    (InitializeModel [5] 0 = .ok (.leaf 5 .Empty 5) ∧
      (ReplaceRoot [5] true 7 9 (.leaf 5 .Full 5)).newTree = .leaf 9 .Empty 5 ∧
      (ReplaceRoot [5] true 7 9 (.leaf 5 .Full 5)).pertCleared = true) := by
  have hfilter : (cs.filter (fun c => !(statusOf c == .Full))) = [] := by
    apply List.filter_eq_nil_iff.mpr
    intro c hc
    simp [hfull c hc]
  refine ⟨?_, ?_, ?_, rfl, rfl, rfl⟩
  · intro k v' nid t
    constructor <;> simp [ReplaceFullRoot]
  · match keys, hlen, hnd with
    | a :: b :: l, _, hnd =>
      have hcond : ¬((a :: b :: l) ≠ [] ∧ (a :: b :: l).head? = (a :: b :: l).getLast?) :=
        fun h => head?_ne_getLast?_of_nodup a b l hnd h.2
      simp only [ReplaceFullRoot, if_neg hcond]
      rw [if_neg (by simp)]
      simp [hfilter]
  · match keys, hlen, hnd with
    | a :: b :: l, _, hnd =>
      have hcond : ¬((a :: b :: l) ≠ [] ∧ (a :: b :: l).head? = (a :: b :: l).getLast?) :=
        fun h => head?_ne_getLast?_of_nodup a b l hnd h.2
      simp only [ReplaceFullRoot, if_neg hcond]
      rw [if_neg (by simp)]
      simp [hfilter]

/-- Concrete instance of `claim_C2`: one key replaces a Full leaf root by a
fresh leaf; two keys turn a Full P-node root into a P-node with exactly the
two fresh leaves; the `[e1]` round trip keeps a single leaf. -/
theorem claim_C2_witness :
    (ReplaceFullRoot [4] 0 false 8 (.leaf 1 .Full 5)).replacement = .leaf 8 .Empty 4 ∧
    (ReplaceFullRoot [1, 2] 0 false 50 (.pnode 6 .Full [.leaf 3 .Full 3])).replacement =
      .pnode 6 .Full (newLeavesFor [1, 2]) ∧
    (ReplaceRoot [5] true 7 9 (.leaf 5 .Full 5)).newTree = .leaf 9 .Empty 5 := by
  have h := claim_C2 [1, 2] (by decide) (by decide) 6 0 50 .Full [.leaf 3 .Full 3] (by decide)
  exact ⟨(h.1 4 0 8 _).1, h.2.1, h.2.2.2.2.1⟩

/-- Claim C3.  While `ReplaceRoot` buckets the scanned frontier, an
indicator entry goes to `opposed` exactly when its `changeDir` flag is
set and to `nonOpposed` otherwise (first and second conjuncts, via the
filterMap characterisation of `bucketize` and of the `ReplaceRoot`
outputs); and the scan finalises `changeDir` exactly when the indicator is
traversed opposite to its creation-time orientation.  The left-to-right
frontier scan enters each Q-node child from its layout-left neighbour, so
"entered from the side the `Left` sibling pointer does not point to"
means: the `Left` pointer targets the layout-right neighbour, i.e.
`sibLeftIsNext = true` — and the third conjunct shows that a freshly
created indicator (its `changeDir` still `false`, as at creation) that is
not the scan's pivot (`post ≠ []`) is emitted with `changeDir =
sibLeftIsNext`. -/
theorem claim_C3 (pre post : List PQNode) (idq i v vtx newId : Nat)
    (st : PQNodeStatus) (s : Bool) (hpost : post ≠ []) :
    (∀ nf : List FrontEntry,
      bucketize nf = (frontierEdges nf, opposedVs nf, nonOpposedVs nf)) ∧
    (∀ t : PQNode,
      (ReplaceRoot [] true vtx newId t).opposed = opposedVs (frontEntries t) ∧
      (ReplaceRoot [] true vtx newId t).nonOpposed = nonOpposedVs (frontEntries t)) ∧
    (frontEntries (.qnode idq st (pre ++ .indicator i ⟨v, false⟩ s :: post)) =
      walkIndEntries false true post.reverse ++
        .indKey v s ::
          (walkIndEntries false false pre.reverse ++ (frontList pre ++ frontList post))) := by
  refine ⟨bucketize_eq, ?_, ?_⟩
  · intro t
    constructor <;> simp [ReplaceRoot, bucketize_eq]
  · have hrev : (pre ++ .indicator i ⟨v, false⟩ s :: post).reverse =
        post.reverse ++ .indicator i ⟨v, false⟩ s :: pre.reverse := by
      simp
    have hne : post.reverse.isEmpty = false := by
      cases post with
      | nil => cases hpost rfl
      | cons d rest => simp [List.isEmpty_iff]
    rw [show frontEntries (.qnode idq st (pre ++ .indicator i ⟨v, false⟩ s :: post)) =
        walkIndEntries false true (pre ++ .indicator i ⟨v, false⟩ s :: post).reverse ++
          frontList (pre ++ .indicator i ⟨v, false⟩ s :: post) from rfl,
      hrev, walkIndEntries_append, hne, frontList_append]
    simp [walkIndEntries, frontList, isIndicator]

/-- Concrete instance of `claim_C3`: a fresh indicator between two leaves
of a Q-node, entered from the side its `Left` pointer does not point to
(`sibLeftIsNext = true`), is emitted with `changeDir = true`. -/
theorem claim_C3_witness :
    frontEntries (.qnode 0 .Empty
        ([PQNode.leaf 1 .Empty 10] ++ .indicator 2 ⟨7, false⟩ true :: [PQNode.leaf 3 .Empty 20])) =
      walkIndEntries false true [PQNode.leaf 3 .Empty 20].reverse ++
        .indKey 7 true ::
          (walkIndEntries false false [PQNode.leaf 1 .Empty 10].reverse ++
            (frontList [PQNode.leaf 1 .Empty 10] ++ frontList [PQNode.leaf 3 .Empty 20])) :=
  (claim_C3 [PQNode.leaf 1 .Empty 10] [PQNode.leaf 3 .Empty 20] 0 2 7 0 0 .Empty true
    (List.cons_ne_nil _ _)).2.2

/-- Counterexample to claim C4 as stated: `front` on a Full Q-node with two
Full leaf children visits three Full nodes (ids 0, 1, 2 — the whole
subtree is scanned, emitting both leaf keys) yet schedules nothing for
destruction: its additions to `m_pertinentNodes` (and `destroyNode`
calls) are empty, since the source only pushes direction indicators
(lines 450, 469).  Full nodes reach the destruction list during the
labelling pass, not through `front`. -/
theorem counterexample_C4 :
    statusOf (PQNode.qnode 0 .Full [.leaf 1 .Full 10, .leaf 2 .Full 20]) = .Full ∧
    fullIds (PQNode.qnode 0 .Full [.leaf 1 .Full 10, .leaf 2 .Full 20]) = [0, 1, 2] ∧
    frontEntries (PQNode.qnode 0 .Full [.leaf 1 .Full 10, .leaf 2 .Full 20]) =
      [.leafKey 10, .leafKey 20] ∧
    frontSched (PQNode.qnode 0 .Full [.leaf 1 .Full 10, .leaf 2 .Full 20]) = [] := by
  exact ⟨rfl, rfl, rfl, rfl⟩

/-- Claim C4 as amended.  A call of `front` on a (non-indicator) subtree
schedules for destruction exactly the Indicator nodes of that subtree
(every one of which the scan visits) — visited Full nodes are *not*
scheduled by `front` itself, they are destroyed later by
`emptyAllPertinentNodes` from the pertinent-nodes list the labelling pass
recorded — and apart from finalising the visited indicators' `changeDir`
flags it performs no other mutation of the tree. -/
theorem claim_C4 (t : PQNode) (h : isIndicator t = false) :
    (∀ i, i ∈ frontSched t ↔ i ∈ indIds t) ∧
    eraseCD (frontAfterT t) = eraseCD t :=
  ⟨frontSched_iff_indIds t h, eraseCD_frontAfterT t⟩

/-- Concrete instance of `claim_C4` on a Q-node holding one indicator
(id 2) between two leaves. -/
theorem claim_C4_witness :
    ((2 : Nat) ∈ frontSched (PQNode.qnode 0 .Empty
        [.leaf 1 .Empty 10, .indicator 2 ⟨7, false⟩ true, .leaf 3 .Empty 20]) ↔
      (2 : Nat) ∈ indIds (PQNode.qnode 0 .Empty
        [.leaf 1 .Empty 10, .indicator 2 ⟨7, false⟩ true, .leaf 3 .Empty 20])) ∧
    eraseCD (frontAfterT (PQNode.qnode 0 .Empty
        [.leaf 1 .Empty 10, .indicator 2 ⟨7, false⟩ true, .leaf 3 .Empty 20])) =
      eraseCD (PQNode.qnode 0 .Empty
        [.leaf 1 .Empty 10, .indicator 2 ⟨7, false⟩ true, .leaf 3 .Empty 20]) :=
  ⟨(claim_C4 (PQNode.qnode 0 .Empty
      [.leaf 1 .Empty 10, .indicator 2 ⟨7, false⟩ true, .leaf 3 .Empty 20]) rfl).1 2,
   (claim_C4 (PQNode.qnode 0 .Empty
      [.leaf 1 .Empty 10, .indicator 2 ⟨7, false⟩ true, .leaf 3 .Empty 20]) rfl).2⟩

/-- Claim C5.  On the same subtree, `front` and `getFront` produce the same
ordered sequence of keys: entry for entry the same leaf-key and
indicator-key objects (`stripDir` forgets only the value of the mutable
`changeDir` flag stored behind an indicator key, which `front` may have
just finalised).  `getFront` is embedded as a pure function because its
source (lines 488–530) contains no mutation — no `m_pertinentNodes` push,
no `destroyNode`, no `changeDir` write — so calling it does not change the
tree. -/
theorem claim_C5 : ∀ t : PQNode,
    (frontEntries t).map stripDir = (getFrontEntries t).map stripDir :=
  frontEntries_strip

theorem clientSibLeft_not_ind (cs : List PQNode) (i : Nat) (x : PQNode)
    (h : clientSibLeft cs i = some x) : isIndicator x = false :=
  skipIndicatorRun_not_ind _ _ h

theorem clientSibRight_not_ind (cs : List PQNode) (i : Nat) (x : PQNode)
    (h : clientSibRight cs i = some x) : isIndicator x = false :=
  skipIndicatorRun_not_ind _ _ h

theorem clientNextSib_not_ind (cs : List PQNode) (i : Nat) (other : Option Nat) (x : PQNode)
    (h : clientNextSib cs i other = some x) : isIndicator x = false := by
  simp only [clientNextSib] at h
  split at h
  · exact clientSibLeft_not_ind cs i x h
  · split at h
    · exact clientSibRight_not_ind cs i x h
    · cases h

/-- Claim C8.  When `front` or `getFront` scans an interior node whose
children are all regular (no indicator pseudo-children), a Q-node's
children are emitted in the ring's current left-to-right order — the scan
pivots on the right endmost child, pushing towards the left end so that
the left end is expanded first — and a P-node's children are emitted in
the fixed order determined by the ring walk that starts at its
`referenceChild` (the walk order is the stored list; the stack reverses
it, so the emission is its reverse). -/
theorem claim_C8 (j : Nat) (st : PQNodeStatus) (cs : List PQNode)
    (h : ∀ c ∈ cs, isIndicator c = false) :
    frontEntries (.qnode j st cs) = cs.flatMap frontEntries ∧
    getFrontEntries (.qnode j st cs) = cs.flatMap getFrontEntries ∧
    frontEntries (.pnode j st cs) = cs.reverse.flatMap frontEntries ∧
    getFrontEntries (.pnode j st cs) = cs.reverse.flatMap getFrontEntries := by
  have hr : ∀ c ∈ cs.reverse, isIndicator c = false := fun c hc => h c (List.mem_reverse.mp hc)
  refine ⟨?_, ?_, ?_, ?_⟩
  · rw [show frontEntries (.qnode j st cs) =
        walkIndEntries false true cs.reverse ++ frontList cs from rfl,
      walkIndEntries_nil_of_no_ind _ _ _ hr, frontList_eq_flatMap cs h, List.nil_append]
  · rw [show getFrontEntries (.qnode j st cs) =
        walkIndEntriesRO cs.reverse ++ getFrontList cs from rfl,
      walkIndEntriesRO_nil_of_no_ind _ hr, getFrontList_eq_flatMap cs h, List.nil_append]
  · rw [show frontEntries (.pnode j st cs) =
        walkIndEntries true true cs ++ frontRevList cs from rfl,
      walkIndEntries_nil_of_no_ind _ _ _ h, frontRevList_eq_flatMap cs h, List.nil_append]
  · rw [show getFrontEntries (.pnode j st cs) =
        walkIndEntriesRO cs ++ getFrontRevList cs from rfl,
      walkIndEntriesRO_nil_of_no_ind _ h, getFrontRevList_eq_flatMap cs h, List.nil_append]

/-- Concrete instance of `claim_C8` on two leaf children. -/
theorem claim_C8_witness :
    frontEntries (.qnode 0 .Empty [PQNode.leaf 1 .Empty 10, PQNode.leaf 2 .Empty 20]) =
      [PQNode.leaf 1 .Empty 10, PQNode.leaf 2 .Empty 20].flatMap frontEntries ∧
    getFrontEntries (.qnode 0 .Empty [PQNode.leaf 1 .Empty 10, PQNode.leaf 2 .Empty 20]) =
      [PQNode.leaf 1 .Empty 10, PQNode.leaf 2 .Empty 20].flatMap getFrontEntries ∧
    frontEntries (.pnode 0 .Empty [PQNode.leaf 1 .Empty 10, PQNode.leaf 2 .Empty 20]) =
      [PQNode.leaf 1 .Empty 10, PQNode.leaf 2 .Empty 20].reverse.flatMap frontEntries ∧
    getFrontEntries (.pnode 0 .Empty [PQNode.leaf 1 .Empty 10, PQNode.leaf 2 .Empty 20]) =
      [PQNode.leaf 1 .Empty 10, PQNode.leaf 2 .Empty 20].reverse.flatMap getFrontEntries :=
  claim_C8 0 .Empty [PQNode.leaf 1 .Empty 10, PQNode.leaf 2 .Empty 20] (by decide)

/-- Claim C9.  The client traversal functions `clientSibLeft`,
`clientSibRight`, `clientLeftEndmost`, `clientRightEndmost` and
`clientNextSib` never return a node of status Indicator: they skip every
run of consecutive indicator pseudo-children and return the next
non-indicator sibling, or none when only indicators remain in that
direction. -/
theorem claim_C9 (cs : List PQNode) (i : Nat) :
    (∀ x, clientSibLeft cs i = some x → isIndicator x = false) ∧
    (∀ x, clientSibRight cs i = some x → isIndicator x = false) ∧
    (∀ x, clientLeftEndmost cs = some x → isIndicator x = false) ∧
    (∀ x, clientRightEndmost cs = some x → isIndicator x = false) ∧
    (∀ (other : Option Nat) x, clientNextSib cs i other = some x → isIndicator x = false) ∧
    (clientSibLeft cs i = none → ∀ c ∈ cs.take i, isIndicator c = true) ∧
    (clientSibRight cs i = none → ∀ c ∈ cs.drop (i + 1), isIndicator c = true) := by
  refine ⟨fun x h => clientSibLeft_not_ind cs i x h,
    fun x h => clientSibRight_not_ind cs i x h, ?_, ?_,
    fun other x h => clientNextSib_not_ind cs i other x h, ?_, ?_⟩
  · intro x hx
    cases hh : cs.head? with
    | none => simp [clientLeftEndmost, hh] at hx
    | some c =>
        simp only [clientLeftEndmost, hh] at hx
        by_cases hc : isIndicator c = true
        · rw [if_pos hc] at hx
          exact clientNextSib_not_ind cs 0 none x hx
        · rw [if_neg hc] at hx
          cases hx
          simpa using hc
  · intro x hx
    cases hh : cs.getLast? with
    | none => simp [clientRightEndmost, hh] at hx
    | some c =>
        simp only [clientRightEndmost, hh] at hx
        by_cases hc : isIndicator c = true
        · rw [if_pos hc] at hx
          exact clientNextSib_not_ind cs (cs.length - 1) none x hx
        · rw [if_neg hc] at hx
          cases hx
          simpa using hc
  · intro hnone c hc
    exact skipIndicatorRun_none _ hnone c (List.mem_reverse.mpr hc)
  · intro hnone c hc
    exact skipIndicatorRun_none _ hnone c hc

/-- Concrete instance of `claim_C9`: from position 3, skipping the two
indicators to the left lands on the non-indicator leaf. -/
theorem claim_C9_witness :
    isIndicator (PQNode.leaf 1 .Empty 10) = false :=
  (claim_C9 [PQNode.leaf 1 .Empty 10, .indicator 2 ⟨7, false⟩ true,
      .indicator 3 ⟨8, false⟩ false, PQNode.leaf 4 .Empty 20] 3).1
    (PQNode.leaf 1 .Empty 10) rfl

/-- Claim C10.  A `ReplaceRoot` call with an empty leaf-key list while the
pertinent root is the tree root performs no structural replacement: the
tree it leaves behind is exactly `front`'s finalisation of the indicators'
`changeDir` flags (structurally unchanged, as the `eraseCD` equation
states), the stored pertinent root is nulled, and the outputs are exactly
the frontier's leaf keys plus every indicator bucketed into `opposed` or
`nonOpposed` by its (finalised) `changeDir` flag. -/
theorem claim_C10 (t : PQNode) (vtx newId : Nat) :
    (ReplaceRoot [] true vtx newId t).newTree = frontAfterT t ∧
    eraseCD (ReplaceRoot [] true vtx newId t).newTree = eraseCD t ∧
    (ReplaceRoot [] true vtx newId t).pertCleared = true ∧
    (ReplaceRoot [] true vtx newId t).frontier = frontierEdges (frontEntries t) ∧
    (ReplaceRoot [] true vtx newId t).opposed = opposedVs (frontEntries t) ∧
    (ReplaceRoot [] true vtx newId t).nonOpposed = nonOpposedVs (frontEntries t) := by
  refine ⟨?_, ?_, ?_, ?_, ?_, ?_⟩ <;>
    simp [ReplaceRoot, bucketize_eq, eraseCD_frontAfterT]

end EmbedPQ
